import Mathlib

set_option autoImplicit false

/-!
Shallow embedding of the chainlink store layer: `store/orm/orm.go` and the
bulk-delete run models of `store/models`. Database tables are Lean lists of
records; a gorm `Save` on a record with a nonzero primary key is an upsert
keyed on that primary key, and a `Save` on a fresh record inserts it with the
next auto-increment id. Fallible database primitives take explicit failure
flags where a claim is about the error path.
-/

namespace Chainlink

/-- A database error other than gorm `ErrRecordNotFound`; record-not-found
results are filtered away by `multifyWithoutRecordNotFound` in orm.go, so the
queries modelled here surface `none` in that case. -/
inductive DbErr
  | other
deriving Repr, DecidableEq

/-- models.Tx, with the fields the orm layer reads and writes: `From`, `To`,
`Nonce`, `Data`, `Value`, `GasLimit` as constructed by `ORM.CreateTx`,
`Confirmed` as read by `ORM.AddTxAttempt`, and the currently-active attempt.
The active attempt is modelled from the spec as a pointer (the attempt's
hash), since spec section 3 gives Tx a "pointer to its currently-active
attempt". `Value` is a `big.Int`, hence `Int` here. -/
structure Tx where
  id : Nat
  fromAddr : Nat
  toAddr : Nat
  nonce : Nat
  data : List Nat
  value : Int
  gasLimit : Nat
  confirmed : Bool
  activeAttempt : Option Nat
deriving Repr, DecidableEq

/-- models.TxAttempt as constructed by `ORM.AddTxAttempt`: hash, gas price,
signed hex payload, owning tx id, block number sent at, confirmed flag. -/
structure TxAttempt where
  hash : Nat
  gasPrice : Nat
  hex : List Char
  txId : Nat
  sentAt : Nat
  confirmed : Bool
deriving Repr, DecidableEq

/-- The go-ethereum `types.Transaction` data `ORM.AddTxAttempt` consumes: its
hash, gas price, and RLP hex encoding (`utils.EncodeTxToHex`, modelled as
total since encoding a well-formed transaction does not fail). -/
structure EthTx where
  hash : Nat
  gasPrice : Nat
  hex : List Char
deriving Repr, DecidableEq

/-- Modelled from the spec: models.IndexableBlockNumber is not under src.
Spec section 3 gives a Head "number, hash, monotonically-padded sortable
number, parent reference": a block number, a block hash, and the stored
digit count used as the primary sort key. -/
structure IndexableBlockNumber where
  number : Nat
  hash : Nat
  digits : Nat
deriving Repr, DecidableEq

/-- Number of hex digits of a block number (0 has the single digit of
"0x0"), the "monotonically-padded sortable number" of spec section 3. -/
def digitCount (n : Nat) : Nat :=
  if n < 16 then 1 else digitCount (n / 16) + 1
decreasing_by exact Nat.div_lt_self (by omega) (by omega)

/-- Modelled from the spec: the IndexableBlockNumber constructor is not under
src; it records the number, its digit count, and the hash. -/
def mkIndexableBlockNumber (number : Nat) (hash : Nat) : IndexableBlockNumber :=
  { number := number, hash := hash, digits := digitCount number }

/-- Initiator types as dispatched on in the presenters source. -/
inductive InitiatorKind
  | web
  | cron
  | runAt
  | ethLog
  | runLog
deriving Repr, DecidableEq

/-- Modelled from the spec: models.Initiator is not under src. Spec section 3
gives an Initiator a type, a type-specific payload (schedule, time, watched
address) and a "has fired" flag; orm.go `SaveJob` additionally shows the `ID`
and `JobSpecID` fields. -/
structure Initiator where
  id : String
  jobSpecId : String
  kind : InitiatorKind
  schedule : String
  time : Nat
  address : Nat
  ran : Bool
deriving Repr, DecidableEq

/-- models.JobSpec as enumerated by `ORM.Jobs`; only its identity matters to
the claims here. -/
structure JobSpec where
  id : String
deriving Repr, DecidableEq

/-- models.JobRun as deleted by `ORM.DeleteJobRun`. -/
structure JobRun where
  id : String
  jobSpecId : String
deriving Repr, DecidableEq

/-- models.TaskRun as deleted by `ORM.DeleteJobRun`: keyed to its job run by
`job_run_id`. -/
structure TaskRun where
  id : String
  jobRunId : String
deriving Repr, DecidableEq

/-- The durable store behind `ORM`: one list per table, plus the sqlite
auto-increment counter for the `txes` table. -/
structure Store where
  txs : List Tx := []
  attempts : List TxAttempt := []
  heads : List IndexableBlockNumber := []
  initiators : List Initiator := []
  jobSpecs : List JobSpec := []
  jobRuns : List JobRun := []
  taskRuns : List TaskRun := []
  nextTxId : Nat := 1
deriving Repr, DecidableEq

/-- gorm `Save` on a Tx whose primary key is already set: update in place. -/
def upsertTx (t : Tx) : List Tx → List Tx
  | [] => [t]
  | x :: xs => if x.id = t.id then t :: xs else x :: upsertTx t xs

/-- gorm `Save` on a TxAttempt, keyed on its hash. -/
def upsertAttempt (a : TxAttempt) : List TxAttempt → List TxAttempt
  | [] => [a]
  | x :: xs => if x.hash = a.hash then a :: xs else x :: upsertAttempt a xs

/-- gorm `Save` on an IndexableBlockNumber, keyed on its hash. -/
def upsertHead (h : IndexableBlockNumber) : List IndexableBlockNumber → List IndexableBlockNumber
  | [] => [h]
  | x :: xs => if x.hash = h.hash then h :: xs else x :: upsertHead h xs

/-- Result of `ORM.CreateTx`: the allocated Tx, the updated store, and the
error channel of the `Save`. -/
structure CreateTxResult where
  tx : Tx
  store : Store
  err : Option DbErr
deriving Repr, DecidableEq

/-- `ORM.CreateTx` (orm.go): builds a `models.Tx` from the arguments — with
zero-valued `Confirmed` and no attempt — and saves it; the save inserts it
under the next auto-increment id. There is no parameter validation. -/
def createTx (s : Store) (fromAddr : Nat) (nonce : Nat) (toAddr : Nat)
    (data : List Nat) (value : Int) (gasLimit : Nat) : CreateTxResult :=
  let tx : Tx :=
    { id := s.nextTxId
      fromAddr := fromAddr
      toAddr := toAddr
      nonce := nonce
      data := data
      value := value
      gasLimit := gasLimit
      confirmed := false
      activeAttempt := none }
  { tx := tx
    store := { s with txs := s.txs ++ [tx], nextTxId := s.nextTxId + 1 }
    err := none }

/-- Modelled from the spec: models.Tx.AssignTxAttempt is not under src. Spec
section 4.2 says the new attempt is "marked active" and "the previous active
attempt (if any) is retained but demoted": the Tx's active-attempt pointer
moves to the given attempt and nothing else changes. -/
def assignTxAttempt (tx : Tx) (a : TxAttempt) : Tx :=
  { tx with activeAttempt := some a.hash }

/-- Result of `ORM.AddTxAttempt`: the created attempt and the updated store. -/
structure AddTxAttemptResult where
  attempt : TxAttempt
  store : Store
deriving Repr, DecidableEq

/-- `ORM.AddTxAttempt` (orm.go): encodes the ethereum transaction, builds the
attempt record for `tx.ID` sent at `blkNum`, assigns it as the active attempt
unless the Tx is already confirmed, then saves the Tx and the attempt. -/
def addTxAttempt (s : Store) (tx : Tx) (etx : EthTx) (blkNum : Nat) : AddTxAttemptResult :=
  let attempt : TxAttempt :=
    { hash := etx.hash
      gasPrice := etx.gasPrice
      hex := etx.hex
      txId := tx.id
      sentAt := blkNum
      confirmed := false }
  let tx2 := if tx.confirmed then tx else assignTxAttempt tx attempt
  { attempt := attempt
    store := { s with
                txs := upsertTx tx2 s.txs
                attempts := upsertAttempt attempt s.attempts } }

/-- One step of the scan selecting the `ORDER BY nonce DESC ... LIMIT 1` row:
keep the best row so far, replacing it only on a strictly larger nonce. -/
def pickMaxNonce (best : Option Tx) (t : Tx) : Option Tx :=
  match best with
  | none => some t
  | some b => if b.nonce < t.nonce then some t else some b

/-- The row selected by `ORDER BY nonce DESC ... LIMIT 1`: a transaction of
maximal nonce among the given rows (the first such row on ties). -/
def maxNonceFirst (l : List Tx) : Option Tx :=
  List.foldl pickMaxNonce none l

/-- `ORM.GetLastNonce` (orm.go): the nonce of the first transaction from the
address under descending nonce order; when no row matches, the zero-valued
`models.Tx` gives nonce 0 and the record-not-found error is filtered away. -/
def getLastNonce (s : Store) (address : Nat) : Nat × Option DbErr :=
  match maxNonceFirst (s.txs.filter (fun t => decide (t.fromAddr = address))) with
  | some t => (t.nonce, none)
  | none => (0, none)

/-- `ORM.MarkRan` (orm.go): `UPDATE initiators SET ran = true` for the row
whose id is the given initiator's. -/
def markRan (s : Store) (i : Initiator) : Store × Option DbErr :=
  ({ s with
      initiators := s.initiators.map
        (fun x => if x.id = i.id then { x with ran := true } else x) },
   none)

/-- `ORM.SaveHead` (orm.go): saves the indexable block number. -/
def saveHead (s : Store) (n : IndexableBlockNumber) : Store :=
  { s with heads := upsertHead n s.heads }

/-- Whether head `a` sorts strictly before head `b` under the orm.go order
clause "digits desc, number desc". -/
def headSortsBefore (a b : IndexableBlockNumber) : Bool :=
  decide (b.digits < a.digits ∨ (a.digits = b.digits ∧ b.number < a.number))

/-- One step of the scan selecting the `ORDER BY digits DESC, number DESC`
first row: keep the best row so far, replacing it only when the new row sorts
strictly before it. -/
def pickFirstHead (best : Option IndexableBlockNumber) (h : IndexableBlockNumber) :
    Option IndexableBlockNumber :=
  match best with
  | none => some h
  | some b => if headSortsBefore h b then some h else some b

/-- The row selected by `ORDER BY digits DESC, number DESC ... LIMIT 1`: the
first row of maximal (digits, number), keeping the earlier row on ties. -/
def firstBySortOrder (l : List IndexableBlockNumber) : Option IndexableBlockNumber :=
  List.foldl pickFirstHead none l

/-- `ORM.LastHead` (orm.go): the first stored head under "digits desc, number
desc"; with no stored head the zero-valued `models.IndexableBlockNumber` is
returned and the record-not-found error is filtered away. -/
def lastHead (s : Store) : IndexableBlockNumber × Option DbErr :=
  match firstBySortOrder s.heads with
  | some h => (h, none)
  | none => ({ number := 0, hash := 0, digits := 0 }, none)

/-- A sequence of `ORM.SaveHead` calls, one per (number, hash) pair, each
head built by the IndexableBlockNumber constructor. -/
def saveHeads (s : Store) (l : List (Nat × Nat)) : Store :=
  l.foldl (fun acc p => saveHead acc (mkIndexableBlockNumber p.1 p.2)) s

/-- The batch size hard-coded in `ORM.Jobs` (orm.go, `limit := 1000`). -/
def jobsBatchLimit : Nat := 1000

/-- The inner `for _, j := range jobs` loop of `ORM.Jobs`: visits each spec of
the page in order, stopping after the first spec on which the callback
returns false. Returns the specs passed to the callback and whether the loop
stopped early (Go: `return nil` from inside the range). -/
def visitPage (cb : JobSpec → Bool) : List JobSpec → List JobSpec × Bool
  | [] => ([], false)
  | j :: js =>
    if cb j then
      let r := visitPage cb js
      (j :: r.1, r.2)
    else ([j], true)

/-- The `for` loop of `ORM.Jobs`: fetch a page of at most `jobsBatchLimit`
specs at the current offset, run the callback over it, return early when the
callback said stop or the page was short, else advance the offset by the
limit. `rest` is the suffix of the table from the current offset on. Returns
the specs passed to the callback, in order. -/
def jobsLoop (cb : JobSpec → Bool) (rest : List JobSpec) : List JobSpec :=
  let r := visitPage cb (rest.take jobsBatchLimit)
  if r.2 then r.1
  else if h : (rest.take jobsBatchLimit).length < jobsBatchLimit then r.1
  else r.1 ++ jobsLoop cb (rest.drop jobsBatchLimit)
termination_by rest.length
decreasing_by
  simp only [List.length_take, List.length_drop, jobsBatchLimit] at *
  omega

/-- `ORM.Jobs` (orm.go): enumerates the stored job specs in batches of
`jobsBatchLimit`, invoking the callback on each until it returns false.
Returns the specs the callback was invoked on and the (always nil) error. -/
def Jobs (cb : JobSpec → Bool) (s : Store) : List JobSpec × Option DbErr :=
  (jobsLoop cb s.jobSpecs, none)

/-- `ORM.DeleteJobRun` (orm.go): inside one transaction, delete the job run
with the given id, then every task run with that `job_run_id`; a failure of
either delete rolls the transaction back, leaving the caller's store as it
was. The two flags inject the possible database failures of the two deletes. -/
def deleteJobRun (failJobRunDelete failTaskRunDelete : Bool) (s : Store)
    (id : String) : Store × Option DbErr :=
  let afterJobRun : Store :=
    { s with jobRuns := s.jobRuns.filter (fun r => decide (r.id ≠ id)) }
  if failJobRunDelete then (s, some DbErr.other)
  else
    let afterTaskRuns : Store :=
      { afterJobRun with
          taskRuns := afterJobRun.taskRuns.filter (fun t => decide (t.jobRunId ≠ id)) }
    if failTaskRunDelete then (s, some DbErr.other)
    else (afterTaskRuns, none)

/-- models.RunStatus is a string type; statuses are modelled as their
character lists so that the comma join/split of RunStatusCollection is
explicit. -/
abbrev RunStatus := List Char

/-- Modelled from the spec: the models.RunStatus constants are not under src;
spec section 4.3 names the terminal run states Completed and Errored. -/
def RunStatusCompleted : RunStatus := "completed".toList

/-- Modelled from the spec: the errored terminal run state. -/
def RunStatusErrored : RunStatus := "errored".toList

/-- models.RunStatusCollection: a list of run statuses. -/
abbrev RunStatusCollection := List RunStatus

/-- models.BulkTaskStatus, a string type. -/
abbrev BulkTaskStatus := List Char

/-- `BulkTaskStatusInProgress = BulkTaskStatus("")`, the zero value. -/
def BulkTaskStatusInProgress : BulkTaskStatus := []

/-- models.BulkDeleteRunRequest: the status list and updated-before cutoff
describing which runs to delete (`gorm.Model` bookkeeping omitted). -/
structure BulkDeleteRunRequest where
  status : RunStatusCollection
  updatedBefore : Nat
deriving Repr, DecidableEq

/-- models.BulkDeleteRunTask: a task working to delete runs with a query. -/
structure BulkDeleteRunTask where
  id : String
  query : BulkDeleteRunRequest
  status : BulkTaskStatus
  errorMessage : List Char
deriving Repr, DecidableEq

/-- The `for _, status := range request.Status` loop of NewBulkDeleteRunTask:
the first status that is neither completed nor errored, if any. -/
def firstDisallowedStatus : RunStatusCollection → Option RunStatus
  | [] => none
  | st :: rest =>
    if st ≠ RunStatusCompleted ∧ st ≠ RunStatusErrored then some st
    else firstDisallowedStatus rest

/-- models.NewBulkDeleteRunTask: rejects the request if any status is neither
completed nor errored; otherwise builds the task with a freshly generated id
(`utils.NewBytes32ID`, passed in as `freshId`), the request as its query, and
zero-valued status and error message. -/
def NewBulkDeleteRunTask (freshId : String) (request : BulkDeleteRunRequest) :
    Except (List Char) BulkDeleteRunTask :=
  match firstDisallowedStatus request.status with
  | some st => Except.error ("cannot delete Runs with status ".toList ++ st)
  | none =>
    Except.ok
      { id := freshId
        query := request
        status := BulkTaskStatusInProgress
        errorMessage := [] }

/-- `strings.Join(r.ToStrings(), ",")`: the statuses interleaved with commas
(the empty collection joins to the empty string). -/
def joinComma : List (List Char) → List Char
  | [] => []
  | [x] => x
  | x :: xs => x ++ ',' :: joinComma xs

/-- `strings.Split(s, ",")`: split on every comma; the empty string splits to
the one-element list holding the empty string, as in Go. -/
def splitComma : List Char → List (List Char)
  | [] => [[]]
  | c :: rest =>
    if c = ',' then [] :: splitComma rest
    else
      match splitComma rest with
      | p :: ps => (c :: p) :: ps
      | [] => [[c]]

/-- `RunStatusCollection.Value`: the driver value, the comma join. -/
def RunStatusCollection.value (r : RunStatusCollection) : List Char :=
  joinComma r

/-- `RunStatusCollection.Scan` on a byte-slice driver value: split on commas
and coerce each piece to a RunStatus. -/
def RunStatusCollection.scan (v : List Char) : RunStatusCollection :=
  splitComma v

/-- A confirmed Tx whose active attempt is the attempt with hash 5. -/
def txConfirmedEx : Tx :=
  { id := 1, fromAddr := 1, toAddr := 2, nonce := 0, data := [], value := 0,
    gasLimit := 21000, confirmed := true, activeAttempt := some 5 }

/-- The attempt with hash 5, already confirmed. -/
def attemptEx : TxAttempt :=
  { hash := 5, gasPrice := 10, hex := [], txId := 1, sentAt := 1, confirmed := true }

/-- A store holding the confirmed Tx and its confirmed attempt. -/
def storeC2Ex : Store :=
  { txs := [txConfirmedEx], attempts := [attemptEx], nextTxId := 2 }

/-- A fresh ethereum transaction with hash 7 for a gas bump. -/
def ethTxEx : EthTx := { hash := 7, gasPrice := 20, hex := [] }

/-- An unconfirmed Tx with no attempt yet. -/
def txUnconfirmedEx : Tx :=
  { id := 1, fromAddr := 1, toAddr := 2, nonce := 0, data := [], value := 0,
    gasLimit := 21000, confirmed := false, activeAttempt := none }

/-- A store holding just the unconfirmed Tx. -/
def storeC2W : Store := { txs := [txUnconfirmedEx], nextTxId := 2 }

/-- A transaction from address 1 with nonce 5. -/
def txNonce5Ex : Tx :=
  { id := 1, fromAddr := 1, toAddr := 2, nonce := 5, data := [], value := 0,
    gasLimit := 21000, confirmed := false, activeAttempt := none }

/-- A transaction from address 1 with nonce 9. -/
def txNonce9Ex : Tx :=
  { id := 2, fromAddr := 1, toAddr := 2, nonce := 9, data := [], value := 0,
    gasLimit := 21000, confirmed := false, activeAttempt := none }

/-- A store with two transactions from address 1. -/
def storeC4W : Store := { txs := [txNonce5Ex, txNonce9Ex], nextTxId := 3 }

/-- A run-at initiator that has not fired yet. -/
def initEx : Initiator :=
  { id := "a", jobSpecId := "j", kind := InitiatorKind.runAt,
    schedule := "", time := 42, address := 0, ran := false }

/-- A second initiator with a different id. -/
def initOtherEx : Initiator :=
  { id := "b", jobSpecId := "j", kind := InitiatorKind.cron,
    schedule := "* * * * *", time := 0, address := 0, ran := false }

/-- A store holding the two initiators. -/
def storeC6W : Store := { initiators := [initEx, initOtherEx] }

/-- A callback that rejects the spec with id "b". -/
def jobsCbEx : JobSpec → Bool := fun j => decide (j.id ≠ "b")

/-- A store with three job specs a, b, c. -/
def storeC7W : Store := { jobSpecs := [⟨"a"⟩, ⟨"b"⟩, ⟨"c"⟩] }

/-- A request targeting only terminal statuses. -/
def reqOkEx : BulkDeleteRunRequest :=
  { status := [RunStatusCompleted, RunStatusErrored], updatedBefore := 0 }

/-- A request holding the non-terminal status "in_progress". -/
def reqBadEx : BulkDeleteRunRequest :=
  { status := ["in_progress".toList], updatedBefore := 0 }

/-- A job run with id "r1" and one with id "r2". -/
def jobRun1Ex : JobRun := { id := "r1", jobSpecId := "j" }

/-- The second job run. -/
def jobRun2Ex : JobRun := { id := "r2", jobSpecId := "j" }

/-- A store holding the two job runs and one task run of each. -/
def storeC9W : Store :=
  { jobRuns := [jobRun1Ex, jobRun2Ex],
    taskRuns := [{ id := "t1", jobRunId := "r1" }, { id := "t2", jobRunId := "r2" }] }

/-! ## Claims -/

/-- C1, counterexample: `CreateTx` called with gas limit 0 (and a negative
value as well) does not fail — the error channel is `none` — and the new Tx
is persisted, contradicting "fails with InvalidParameters whenever gas limit
is zero or value is negative (in particular, no Tx is persisted for such
inputs)". -/
theorem claim_C1_counterexample :
    (createTx {} 1 0 2 [] (-5) 0).err = none ∧
    (createTx {} 1 0 2 [] (-5) 0).tx ∈ (createTx {} 1 0 2 [] (-5) 0).store.txs := by
  decide

/-- C1, amended: `CreateTx(from, to, data, value, gasLimit)`, for every
input — including a zero gas limit and a negative value — allocates and
persists a new Tx with no attempt yet and never fails: the orm layer performs
no parameter validation. -/
theorem claim_C1_amended (s : Store) (fromAddr nonce toAddr : Nat)
    (data : List Nat) (value : Int) (gasLimit : Nat) :
    (createTx s fromAddr nonce toAddr data value gasLimit).err = none ∧
    (createTx s fromAddr nonce toAddr data value gasLimit).store.txs =
      s.txs ++ [(createTx s fromAddr nonce toAddr data value gasLimit).tx] ∧
    (createTx s fromAddr nonce toAddr data value gasLimit).store.attempts = s.attempts ∧
    (createTx s fromAddr nonce toAddr data value gasLimit).tx.activeAttempt = none ∧
    (createTx s fromAddr nonce toAddr data value gasLimit).tx =
      { id := s.nextTxId
        fromAddr := fromAddr
        toAddr := toAddr
        nonce := nonce
        data := data
        value := value
        gasLimit := gasLimit
        confirmed := false
        activeAttempt := none } := by
  refine ⟨rfl, rfl, rfl, rfl, rfl⟩

theorem mem_upsertAttempt_self (a : TxAttempt) (l : List TxAttempt) :
    a ∈ upsertAttempt a l := by
  induction l with
  | nil => simp [upsertAttempt]
  | cons x xs ih => by_cases h : x.hash = a.hash <;> simp [upsertAttempt, h, ih]

theorem mem_upsertAttempt_of_ne {x a : TxAttempt} {l : List TxAttempt}
    (hx : x ∈ l) (hne : x.hash ≠ a.hash) : x ∈ upsertAttempt a l := by
  induction l with
  | nil => cases hx
  | cons y ys ih =>
    rcases List.mem_cons.mp hx with rfl | hmem
    · simp [upsertAttempt, hne]
    · by_cases h : y.hash = a.hash
      · simp [upsertAttempt, h, hmem]
      · simp only [upsertAttempt, if_neg h, List.mem_cons]
        exact Or.inr (ih hmem)

/-- C2, counterexample: on an already-confirmed Tx, a successful AddTxAttempt
persists the new attempt but does not make it the Tx's active attempt — the
Tx record is saved unchanged, its active-attempt pointer still the old hash 5
rather than the new attempt's hash 7 — contradicting "the newly created
attempt is persisted and becomes the Tx's active attempt". -/
theorem claim_C2_counterexample :
    (addTxAttempt storeC2Ex txConfirmedEx ethTxEx 10).attempt ∈
      (addTxAttempt storeC2Ex txConfirmedEx ethTxEx 10).store.attempts ∧
    (addTxAttempt storeC2Ex txConfirmedEx ethTxEx 10).store.txs = [txConfirmedEx] ∧
    txConfirmedEx.activeAttempt ≠
      some (addTxAttempt storeC2Ex txConfirmedEx ethTxEx 10).attempt.hash := by
  decide

/-- C2, amended: every AddTxAttempt call persists the new attempt and retains
every previously stored attempt with a different hash; the new attempt
becomes the Tx's active attempt when the Tx is not yet confirmed, while on a
confirmed Tx the record is saved unchanged, keeping its current active
attempt — so a Tx that is unconfirmed or already had an active attempt ends
with exactly one active attempt. -/
theorem claim_C2_amended (s : Store) (tx : Tx) (etx : EthTx) (blkNum : Nat) :
    ∃ tx2 : Tx,
      (addTxAttempt s tx etx blkNum).store.txs = upsertTx tx2 s.txs ∧
      (addTxAttempt s tx etx blkNum).attempt ∈
        (addTxAttempt s tx etx blkNum).store.attempts ∧
      (∀ a ∈ s.attempts, a.hash ≠ etx.hash →
        a ∈ (addTxAttempt s tx etx blkNum).store.attempts) ∧
      (tx.confirmed = false →
        tx2.activeAttempt = some (addTxAttempt s tx etx blkNum).attempt.hash) ∧
      (tx.confirmed = true → tx2 = tx) ∧
      ((tx.confirmed = false ∨ tx.activeAttempt.isSome = true) →
        tx2.activeAttempt.isSome = true) := by
  by_cases h : tx.confirmed = true
  · refine ⟨tx, by simp [addTxAttempt, h], ?_, ?_, ?_, fun _ => rfl, ?_⟩
    · exact mem_upsertAttempt_self _ _
    · intro a ha hne
      exact mem_upsertAttempt_of_ne ha hne
    · intro hc
      rw [h] at hc
      cases hc
    · intro hc
      rcases hc with hc | hc
      · rw [h] at hc
        cases hc
      · exact hc
  · have h2 : tx.confirmed = false := by simpa using h
    refine ⟨assignTxAttempt tx
        { hash := etx.hash, gasPrice := etx.gasPrice, hex := etx.hex,
          txId := tx.id, sentAt := blkNum, confirmed := false },
      by simp [addTxAttempt, h2], ?_, ?_, fun _ => rfl, ?_, fun _ => rfl⟩
    · exact mem_upsertAttempt_self _ _
    · intro a ha hne
      exact mem_upsertAttempt_of_ne ha hne
    · intro hc
      rw [h2] at hc
      cases hc

/-- C2 witness: on the concrete unconfirmed Tx, the saved record's active
attempt is the newly added attempt with hash 7. -/
theorem claim_C2_amended_witness :
    ∃ tx2 : Tx,
      (addTxAttempt storeC2W txUnconfirmedEx ethTxEx 3).store.txs =
        upsertTx tx2 storeC2W.txs ∧
      tx2.activeAttempt = some 7 := by
  obtain ⟨tx2, h1, _, _, h4, _, _⟩ :=
    claim_C2_amended storeC2W txUnconfirmedEx ethTxEx 3
  exact ⟨tx2, h1, h4 rfl⟩

/-- C3: adding a further attempt (a gas bump) never changes the Tx's nonce,
from, to, data, value, gas limit, id, or confirmed flag — the saved Tx record
differs at most in its active-attempt pointer — and the new attempt is
recorded for the same Tx id. -/
theorem claim_C3 (s : Store) (tx : Tx) (etx : EthTx) (blkNum : Nat) :
    ∃ tx2 : Tx,
      (addTxAttempt s tx etx blkNum).store.txs = upsertTx tx2 s.txs ∧
      tx2.id = tx.id ∧
      tx2.nonce = tx.nonce ∧
      tx2.fromAddr = tx.fromAddr ∧
      tx2.toAddr = tx.toAddr ∧
      tx2.data = tx.data ∧
      tx2.value = tx.value ∧
      tx2.gasLimit = tx.gasLimit ∧
      tx2.confirmed = tx.confirmed ∧
      (addTxAttempt s tx etx blkNum).attempt.txId = tx.id := by
  by_cases h : tx.confirmed = true
  · refine ⟨tx, ?_, rfl, rfl, rfl, rfl, rfl, rfl, rfl, rfl, rfl⟩
    simp [addTxAttempt, h]
  · have h2 : tx.confirmed = false := by simpa using h
    refine ⟨assignTxAttempt tx
        { hash := etx.hash, gasPrice := etx.gasPrice, hex := etx.hex,
          txId := tx.id, sentAt := blkNum, confirmed := false },
      ?_, rfl, rfl, rfl, rfl, rfl, rfl, rfl, rfl, rfl⟩
    simp [addTxAttempt, h2]

theorem foldl_pickMaxNonce_spec (l : List Tx) (b : Tx) :
    ∃ c, List.foldl pickMaxNonce (some b) l = some c ∧ (c = b ∨ c ∈ l) ∧
      b.nonce ≤ c.nonce ∧ ∀ t ∈ l, t.nonce ≤ c.nonce := by
  induction l generalizing b with
  | nil => exact ⟨b, rfl, Or.inl rfl, Nat.le_refl _, by simp⟩
  | cons t ts ih =>
    by_cases h : b.nonce < t.nonce
    · obtain ⟨c, hc, hmem, hle, hall⟩ := ih t
      refine ⟨c, ?_, ?_, ?_, ?_⟩
      · simpa [pickMaxNonce, h] using hc
      · rcases hmem with rfl | hm
        · exact Or.inr (List.mem_cons_self _ _)
        · exact Or.inr (List.mem_cons_of_mem _ hm)
      · omega
      · intro x hx
        rcases List.mem_cons.mp hx with rfl | hm
        · exact hle
        · exact hall x hm
    · obtain ⟨c, hc, hmem, hle, hall⟩ := ih b
      refine ⟨c, ?_, ?_, hle, ?_⟩
      · simpa [pickMaxNonce, h] using hc
      · rcases hmem with rfl | hm
        · exact Or.inl rfl
        · exact Or.inr (List.mem_cons_of_mem _ hm)
      · intro x hx
        rcases List.mem_cons.mp hx with rfl | hm
        · omega
        · exact hall x hm

theorem maxNonceFirst_spec (l : List Tx) (h : l ≠ []) :
    ∃ c, maxNonceFirst l = some c ∧ c ∈ l ∧ ∀ t ∈ l, t.nonce ≤ c.nonce := by
  match l with
  | [] => exact absurd rfl h
  | t :: ts =>
    obtain ⟨c, hc, hmem, _, hall⟩ := foldl_pickMaxNonce_spec ts t
    refine ⟨c, hc, ?_, ?_⟩
    · rcases hmem with rfl | hm
      · exact List.mem_cons_self _ _
      · exact List.mem_cons_of_mem _ hm
    · intro x hx
      rcases List.mem_cons.mp hx with rfl | hm
      · obtain ⟨_, _, hle, _⟩ := foldl_pickMaxNonce_spec ts x
        omega
      · exact hall x hm

/-- C4: GetLastNonce returns no error; for an address with no persisted
transaction it returns nonce 0; for every address, the returned nonce is an
upper bound on the nonces of the persisted transactions from it, and when
such a transaction exists the returned nonce is attained by one of them — it
is the highest persisted nonce for the address. -/
theorem claim_C4 (s : Store) (address : Nat) :
    (getLastNonce s address).2 = none ∧
    ((∀ t ∈ s.txs, t.fromAddr ≠ address) → (getLastNonce s address).1 = 0) ∧
    (∀ t ∈ s.txs, t.fromAddr = address → t.nonce ≤ (getLastNonce s address).1) ∧
    ((∃ t, t ∈ s.txs ∧ t.fromAddr = address) →
      ∃ t, t ∈ s.txs ∧ t.fromAddr = address ∧ (getLastNonce s address).1 = t.nonce) := by
  refine ⟨?_, ?_, ?_, ?_⟩
  · unfold getLastNonce
    cases maxNonceFirst (s.txs.filter fun t => decide (t.fromAddr = address)) <;> rfl
  · intro hnone
    have hfl : s.txs.filter (fun t => decide (t.fromAddr = address)) = [] := by
      simp only [List.filter_eq_nil_iff, decide_eq_true_eq]
      exact hnone
    unfold getLastNonce
    rw [hfl]
    rfl
  · intro t ht heq
    have hmem : t ∈ s.txs.filter (fun t => decide (t.fromAddr = address)) :=
      List.mem_filter.mpr ⟨ht, by simpa using heq⟩
    obtain ⟨c, hc, _, hall⟩ :=
      maxNonceFirst_spec _ (List.ne_nil_of_mem hmem)
    have : (getLastNonce s address).1 = c.nonce := by
      unfold getLastNonce
      rw [hc]
    rw [this]
    exact hall t hmem
  · rintro ⟨t, ht, heq⟩
    have hmem : t ∈ s.txs.filter (fun t => decide (t.fromAddr = address)) :=
      List.mem_filter.mpr ⟨ht, by simpa using heq⟩
    obtain ⟨c, hc, hcmem, _⟩ :=
      maxNonceFirst_spec _ (List.ne_nil_of_mem hmem)
    have hcfl := List.mem_filter.mp hcmem
    refine ⟨c, hcfl.1, by simpa using hcfl.2, ?_⟩
    unfold getLastNonce
    rw [hc]

/-- C4 witness: on the concrete store, GetLastNonce for address 1 errors not
and returns a nonce attained by a stored transaction from address 1 that
bounds nonce 5. -/
theorem claim_C4_witness :
    (getLastNonce storeC4W 1).2 = none ∧
    5 ≤ (getLastNonce storeC4W 1).1 ∧
    ∃ t, t ∈ storeC4W.txs ∧ t.fromAddr = 1 ∧ (getLastNonce storeC4W 1).1 = t.nonce := by
  obtain ⟨hn, -, hb, hex⟩ := claim_C4 storeC4W 1
  exact ⟨hn, hb txNonce5Ex (by decide) (by decide),
    hex ⟨txNonce5Ex, by decide, by decide⟩⟩

theorem digitCount_eq (n : Nat) :
    digitCount n = if n < 16 then 1 else digitCount (n / 16) + 1 := by
  rw [digitCount]

theorem digitCount_mono : ∀ {m n : Nat}, m ≤ n → digitCount m ≤ digitCount n := by
  intro m n
  induction n using Nat.strong_induction_on generalizing m with
  | _ n ih =>
    intro h
    by_cases hn : n < 16
    · have hm : m < 16 := Nat.lt_of_le_of_lt h hn
      rw [digitCount_eq m, if_pos hm, digitCount_eq n, if_pos hn]
    · rw [digitCount_eq n, if_neg hn]
      by_cases hm : m < 16
      · rw [digitCount_eq m, if_pos hm]
        omega
      · rw [digitCount_eq m, if_neg hm]
        have hdiv : m / 16 ≤ n / 16 := Nat.div_le_div_right h
        have hlt : n / 16 < n := Nat.div_lt_self (by omega) (by omega)
        exact Nat.succ_le_succ (ih (n / 16) hlt hdiv)

theorem headSortsBefore_irrefl (x : IndexableBlockNumber) :
    headSortsBefore x x = false := by
  simp only [headSortsBefore, decide_eq_false_iff_not]
  omega

theorem headSortsBefore_asymm {x y : IndexableBlockNumber}
    (h : headSortsBefore x y = true) : headSortsBefore y x = false := by
  simp only [headSortsBefore, decide_eq_true_eq] at h
  simp only [headSortsBefore, decide_eq_false_iff_not]
  omega

theorem headSortsBefore_neg_trans {x y z : IndexableBlockNumber}
    (h1 : headSortsBefore x y = false) (h2 : headSortsBefore y z = false) :
    headSortsBefore x z = false := by
  simp only [headSortsBefore, decide_eq_false_iff_not] at *
  omega

/-- For heads carrying the digit count of their own number, the orm.go sort
order "digits desc, number desc" coincides with numeric order on the block
numbers. -/
theorem headSortsBefore_wf_iff {a b : IndexableBlockNumber}
    (ha : a.digits = digitCount a.number) (hb : b.digits = digitCount b.number) :
    headSortsBefore a b = true ↔ b.number < a.number := by
  simp only [headSortsBefore, decide_eq_true_eq, ha, hb]
  constructor
  · intro h
    by_contra hc
    push_neg at hc
    have := digitCount_mono hc
    omega
  · intro h
    have := digitCount_mono (Nat.le_of_lt h)
    omega

theorem foldl_pickFirstHead_spec (l : List IndexableBlockNumber)
    (b : IndexableBlockNumber) :
    ∃ c, List.foldl pickFirstHead (some b) l = some c ∧ (c = b ∨ c ∈ l) ∧
      headSortsBefore b c = false ∧ ∀ x ∈ l, headSortsBefore x c = false := by
  induction l generalizing b with
  | nil => exact ⟨b, rfl, Or.inl rfl, headSortsBefore_irrefl b, by simp⟩
  | cons t ts ih =>
    by_cases h : headSortsBefore t b = true
    · obtain ⟨c, hc, hmem, hle, hall⟩ := ih t
      have hbt : headSortsBefore b t = false := headSortsBefore_asymm h
      refine ⟨c, ?_, ?_, headSortsBefore_neg_trans hbt hle, ?_⟩
      · simpa [pickFirstHead, h] using hc
      · rcases hmem with rfl | hm
        · exact Or.inr (List.mem_cons_self _ _)
        · exact Or.inr (List.mem_cons_of_mem _ hm)
      · intro x hx
        rcases List.mem_cons.mp hx with rfl | hm
        · exact hle
        · exact hall x hm
    · have h2 : headSortsBefore t b = false := by simpa using h
      obtain ⟨c, hc, hmem, hle, hall⟩ := ih b
      refine ⟨c, ?_, ?_, hle, ?_⟩
      · simpa [pickFirstHead, h2] using hc
      · rcases hmem with rfl | hm
        · exact Or.inl rfl
        · exact Or.inr (List.mem_cons_of_mem _ hm)
      · intro x hx
        rcases List.mem_cons.mp hx with rfl | hm
        · exact headSortsBefore_neg_trans h2 hle
        · exact hall x hm

theorem firstBySortOrder_spec (l : List IndexableBlockNumber) (h : l ≠ []) :
    ∃ c, firstBySortOrder l = some c ∧ c ∈ l ∧
      ∀ x ∈ l, headSortsBefore x c = false := by
  match l with
  | [] => exact absurd rfl h
  | t :: ts =>
    obtain ⟨c, hc, hmem, hbt, hall⟩ := foldl_pickFirstHead_spec ts t
    refine ⟨c, hc, ?_, ?_⟩
    · rcases hmem with rfl | hm
      · exact List.mem_cons_self _ _
      · exact List.mem_cons_of_mem _ hm
    · intro x hx
      rcases List.mem_cons.mp hx with rfl | hm
      · exact hbt
      · exact hall x hm

theorem mem_upsertHead {x h : IndexableBlockNumber} {l : List IndexableBlockNumber}
    (hx : x ∈ upsertHead h l) : x = h ∨ x ∈ l := by
  induction l with
  | nil =>
    simp only [upsertHead, List.mem_singleton] at hx
    exact Or.inl hx
  | cons y ys ih =>
    by_cases he : y.hash = h.hash
    · simp only [upsertHead, if_pos he, List.mem_cons] at hx
      rcases hx with rfl | hm
      · exact Or.inl rfl
      · exact Or.inr (List.mem_cons_of_mem _ hm)
    · simp only [upsertHead, if_neg he, List.mem_cons] at hx
      rcases hx with rfl | hm
      · exact Or.inr (List.mem_cons_self _ _)
      · rcases ih hm with h1 | h1
        · exact Or.inl h1
        · exact Or.inr (List.mem_cons_of_mem _ h1)

theorem upsertHead_ne_nil (h : IndexableBlockNumber) (l : List IndexableBlockNumber) :
    upsertHead h l ≠ [] := by
  cases l with
  | nil => simp [upsertHead]
  | cons y ys =>
    simp only [upsertHead]
    split <;> simp

theorem mem_saveHeads {s : Store} {l : List (Nat × Nat)} {x : IndexableBlockNumber}
    (hx : x ∈ (saveHeads s l).heads) :
    x ∈ s.heads ∨ ∃ p ∈ l, x = mkIndexableBlockNumber p.1 p.2 := by
  induction l generalizing s with
  | nil => exact Or.inl hx
  | cons p ps ih =>
    rw [show saveHeads s (p :: ps) =
          saveHeads (saveHead s (mkIndexableBlockNumber p.1 p.2)) ps from rfl] at hx
    rcases ih hx with hmem | ⟨q, hq, rfl⟩
    · rcases mem_upsertHead hmem with rfl | hm
      · exact Or.inr ⟨p, List.mem_cons_self _ _, rfl⟩
      · exact Or.inl hm
    · exact Or.inr ⟨q, List.mem_cons_of_mem _ hq, rfl⟩

theorem saveHeads_heads_ne_nil {s : Store} {l : List (Nat × Nat)}
    (h : s.heads ≠ [] ∨ l ≠ []) : (saveHeads s l).heads ≠ [] := by
  induction l generalizing s with
  | nil =>
    rcases h with h | h
    · exact h
    · exact absurd rfl h
  | cons p ps ih =>
    rw [show saveHeads s (p :: ps) =
          saveHeads (saveHead s (mkIndexableBlockNumber p.1 p.2)) ps from rfl]
    exact ih (Or.inl (upsertHead_ne_nil _ _))

/-- C5: the orm.go ordering "digits desc, number desc" on constructed heads
coincides with numeric order on their block numbers; after any sequence of
SaveHead calls on a fresh store, LastHead returns, with no error, a saved
head whose block number is greatest among all persisted heads, and with no
head ever saved it returns the zero-valued empty head and no error. -/
theorem claim_C5 :
    (∀ n1 h1 n2 h2 : Nat,
      headSortsBefore (mkIndexableBlockNumber n1 h1) (mkIndexableBlockNumber n2 h2) = true ↔
        n2 < n1) ∧
    (∀ l : List (Nat × Nat),
      (l = [] →
        lastHead (saveHeads {} l) = ({ number := 0, hash := 0, digits := 0 }, none)) ∧
      (l ≠ [] →
        (lastHead (saveHeads {} l)).2 = none ∧
        (lastHead (saveHeads {} l)).1 ∈ (saveHeads {} l).heads ∧
        (∃ p ∈ l, (lastHead (saveHeads {} l)).1 = mkIndexableBlockNumber p.1 p.2) ∧
        ∀ h ∈ (saveHeads {} l).heads,
          h.number ≤ (lastHead (saveHeads {} l)).1.number)) := by
  constructor
  · intro n1 h1 n2 h2
    exact headSortsBefore_wf_iff rfl rfl
  · intro l
    constructor
    · rintro rfl
      rfl
    · intro hl
      have hne : (saveHeads {} l).heads ≠ [] := saveHeads_heads_ne_nil (Or.inr hl)
      obtain ⟨c, hc, hcmem, hall⟩ := firstBySortOrder_spec _ hne
      have hlast : lastHead (saveHeads {} l) = (c, none) := by
        unfold lastHead
        rw [hc]
      rw [hlast]
      have hcwf : c.digits = digitCount c.number := by
        rcases mem_saveHeads hcmem with hm | ⟨p, _, rfl⟩
        · cases hm
        · rfl
      refine ⟨rfl, hcmem, ?_, ?_⟩
      · rcases mem_saveHeads hcmem with hm | ⟨p, hp, rfl⟩
        · cases hm
        · exact ⟨p, hp, rfl⟩
      · intro h hmem
        have hwf : h.digits = digitCount h.number := by
          rcases mem_saveHeads hmem with hm | ⟨p, _, rfl⟩
          · cases hm
          · rfl
        have hfalse := hall h hmem
        by_contra hlt
        push_neg at hlt
        have := (headSortsBefore_wf_iff hwf hcwf).mpr hlt
        rw [this] at hfalse
        cases hfalse

/-- C5 witness: for the concrete save sequence of heads 5 then 20, the head
with the larger number 20 sorts first, LastHead reports no error, and every
persisted head's number is bounded by the returned head's number. -/
theorem claim_C5_witness :
    headSortsBefore (mkIndexableBlockNumber 20 101) (mkIndexableBlockNumber 5 100) = true ∧
    (lastHead (saveHeads {} [(5, 100), (20, 101)])).2 = none ∧
    ∀ h ∈ (saveHeads {} [(5, 100), (20, 101)]).heads,
      h.number ≤ (lastHead (saveHeads {} [(5, 100), (20, 101)])).1.number := by
  obtain ⟨hiff, hseq⟩ := claim_C5
  obtain ⟨-, hne⟩ := hseq [(5, 100), (20, 101)]
  obtain ⟨h2, -, -, hbound⟩ := hne (by decide)
  exact ⟨(hiff 20 101 5 100).mpr (by decide), h2, hbound⟩

/-- C6: MarkRan reports no error, touches no table other than initiators,
keeps the initiator count, and rewrites each stored initiator row as follows:
the rows with the given initiator's id get `ran = true` with every other
field (id, job spec id, kind, schedule, time, address) unchanged, and every
other row is untouched. The flag lives in the returned durable store, so it
survives a restart. -/
theorem claim_C6 (s : Store) (i : Initiator) :
    (markRan s i).2 = none ∧
    (markRan s i).1.txs = s.txs ∧
    (markRan s i).1.attempts = s.attempts ∧
    (markRan s i).1.heads = s.heads ∧
    (markRan s i).1.jobSpecs = s.jobSpecs ∧
    (markRan s i).1.jobRuns = s.jobRuns ∧
    (markRan s i).1.taskRuns = s.taskRuns ∧
    (markRan s i).1.initiators.length = s.initiators.length ∧
    ∀ (k : Nat) (x : Initiator), s.initiators[k]? = some x →
      ∃ y : Initiator, (markRan s i).1.initiators[k]? = some y ∧
        (x.id = i.id →
          y.id = x.id ∧ y.jobSpecId = x.jobSpecId ∧ y.kind = x.kind ∧
          y.schedule = x.schedule ∧ y.time = x.time ∧ y.address = x.address ∧
          y.ran = true) ∧
        (x.id ≠ i.id → y = x) := by
  refine ⟨rfl, rfl, rfl, rfl, rfl, rfl, rfl, by simp [markRan], ?_⟩
  intro k x hx
  refine ⟨if x.id = i.id then { x with ran := true } else x, ?_, ?_, ?_⟩
  · show (s.initiators.map _)[k]? = _
    rw [List.getElem?_map, hx]
    rfl
  · intro he
    simp [he]
  · intro hne
    rw [if_neg hne]

/-- C6 witness: marking the concrete run-at initiator ran sets exactly its
row's flag, preserves its other fields, and leaves the other row alone. -/
theorem claim_C6_witness :
    (∃ y : Initiator, (markRan storeC6W initEx).1.initiators[0]? = some y ∧
      y.ran = true ∧ y.id = "a" ∧ y.time = 42 ∧ y.kind = InitiatorKind.runAt) ∧
    (markRan storeC6W initEx).1.initiators[1]? = some initOtherEx := by
  obtain ⟨-, -, -, -, -, -, -, -, hrow⟩ := claim_C6 storeC6W initEx
  obtain ⟨y, hy, hyes, -⟩ := hrow 0 initEx rfl
  obtain ⟨z, hz, -, hno⟩ := hrow 1 initOtherEx rfl
  obtain ⟨h1, -, h3, -, h5, -, h7⟩ := hyes rfl
  exact ⟨⟨y, hy, h7, h1, h5, h3⟩, by rw [hz, hno (by decide)]⟩

theorem visitPage_eq (cb : JobSpec → Bool) (l : List JobSpec) :
    visitPage cb l =
      (l.takeWhile cb ++ (l.dropWhile cb).take 1, !(l.dropWhile cb).isEmpty) := by
  induction l with
  | nil => rfl
  | cons j js ih =>
    by_cases h : cb j
    · simp [visitPage, h, List.takeWhile_cons, List.dropWhile_cons, ih]
    · have h2 : cb j = false := by simpa using h
      simp [visitPage, h2, List.takeWhile_cons, List.dropWhile_cons]

theorem take_one_append {α : Type} (zs ys : List α) (h : zs ≠ []) :
    (zs ++ ys).take 1 = zs.take 1 := by
  cases zs with
  | nil => exact absurd rfl h
  | cons z zs => simp

theorem takeWhile_append_left {α : Type} (p : α → Bool) (xs ys : List α)
    (h : xs.dropWhile p ≠ []) : (xs ++ ys).takeWhile p = xs.takeWhile p := by
  induction xs with
  | nil => exact absurd rfl h
  | cons x xs ih =>
    by_cases hx : p x
    · have h2 : xs.dropWhile p ≠ [] := by simpa [List.dropWhile_cons, hx] using h
      simp [List.takeWhile_cons, hx, ih h2]
    · have hx2 : p x = false := by simpa using hx
      simp [List.takeWhile_cons, hx2]

theorem dropWhile_append_left {α : Type} (p : α → Bool) (xs ys : List α)
    (h : xs.dropWhile p ≠ []) : (xs ++ ys).dropWhile p = xs.dropWhile p ++ ys := by
  induction xs with
  | nil => exact absurd rfl h
  | cons x xs ih =>
    by_cases hx : p x
    · have h2 : xs.dropWhile p ≠ [] := by simpa [List.dropWhile_cons, hx] using h
      simp [List.dropWhile_cons, hx, ih h2]
    · have hx2 : p x = false := by simpa using hx
      simp [List.dropWhile_cons, hx2]

theorem takeWhile_append_all {α : Type} (p : α → Bool) (xs ys : List α)
    (h : xs.dropWhile p = []) : (xs ++ ys).takeWhile p = xs ++ ys.takeWhile p := by
  induction xs with
  | nil => simp
  | cons x xs ih =>
    have hx : p x = true := by
      by_contra hc
      have hx2 : p x = false := by simpa using hc
      simp [List.dropWhile_cons, hx2] at h
    have h2 : xs.dropWhile p = [] := by simpa [List.dropWhile_cons, hx] using h
    simp [List.takeWhile_cons, hx, ih h2]

theorem dropWhile_append_all {α : Type} (p : α → Bool) (xs ys : List α)
    (h : xs.dropWhile p = []) : (xs ++ ys).dropWhile p = ys.dropWhile p := by
  induction xs with
  | nil => simp
  | cons x xs ih =>
    have hx : p x = true := by
      by_contra hc
      have hx2 : p x = false := by simpa using hc
      simp [List.dropWhile_cons, hx2] at h
    have h2 : xs.dropWhile p = [] := by simpa [List.dropWhile_cons, hx] using h
    simp [List.dropWhile_cons, hx, ih h2]

theorem jobsLoop_eq (cb : JobSpec → Bool) (rest : List JobSpec) :
    jobsLoop cb rest = rest.takeWhile cb ++ (rest.dropWhile cb).take 1 := by
  induction rest using jobsLoop.induct cb with
  | case1 rest r hr =>
    have hv := visitPage_eq cb (rest.take jobsBatchLimit)
    have hr2 : (visitPage cb (rest.take jobsBatchLimit)).2 = true := hr
    rw [hv] at hr2
    have hd : (rest.take jobsBatchLimit).dropWhile cb ≠ [] := by
      intro hnil
      rw [hnil] at hr2
      simp at hr2
    rw [jobsLoop]
    simp only [hv]
    rw [if_pos (by simpa using hr2)]
    conv_rhs => rw [← List.take_append_drop jobsBatchLimit rest]
    rw [takeWhile_append_left _ _ _ hd, dropWhile_append_left _ _ _ hd,
      take_one_append _ _ hd]
  | case2 rest r hr hlen =>
    have hv := visitPage_eq cb (rest.take jobsBatchLimit)
    have hr2 : ¬ (visitPage cb (rest.take jobsBatchLimit)).2 = true := hr
    rw [hv] at hr2
    have hrest : rest.take jobsBatchLimit = rest := by
      apply List.take_of_length_le
      simp only [List.length_take] at hlen
      omega
    rw [jobsLoop]
    simp only [hv]
    rw [if_neg (by simpa using hr2), dif_pos hlen]
    rw [hrest]
  | case3 rest r hr hlen ih =>
    have hv := visitPage_eq cb (rest.take jobsBatchLimit)
    have hr2 : ¬ (visitPage cb (rest.take jobsBatchLimit)).2 = true := hr
    rw [hv] at hr2
    have hd : (rest.take jobsBatchLimit).dropWhile cb = [] := by
      have h3 : ((rest.take jobsBatchLimit).dropWhile cb).isEmpty = true := by
        simpa using hr2
      simpa [List.isEmpty_iff] using h3
    have hself : (rest.take jobsBatchLimit).takeWhile cb = rest.take jobsBatchLimit :=
      List.takeWhile_eq_self_iff.mpr (List.dropWhile_eq_nil_iff.mp hd)
    rw [jobsLoop]
    simp only [hv]
    rw [if_neg (by simpa using hr2), dif_neg hlen]
    rw [ih, hd, hself]
    conv_rhs => rw [← List.take_append_drop jobsBatchLimit rest]
    rw [takeWhile_append_all _ _ _ hd, dropWhile_append_all _ _ _ hd]
    simp [List.append_assoc]

/-- C7: ORM.Jobs returns nil, and the sequence of specs the callback is
invoked on is exactly the stored specs up to and including the first one on
which the callback returns false — each spec at most once, enumeration
stopping right there — and when the callback never returns false every
stored spec is visited exactly once, whatever the relation of the spec count
to the batch size of 1000. -/
theorem claim_C7 (cb : JobSpec → Bool) (s : Store) :
    (Jobs cb s).2 = none ∧
    (Jobs cb s).1 = s.jobSpecs.takeWhile cb ++ (s.jobSpecs.dropWhile cb).take 1 ∧
    ((∀ j ∈ s.jobSpecs, cb j = true) → (Jobs cb s).1 = s.jobSpecs) := by
  refine ⟨rfl, jobsLoop_eq cb s.jobSpecs, ?_⟩
  intro hall
  have hd : s.jobSpecs.dropWhile cb = [] :=
    List.dropWhile_eq_nil_iff.mpr (fun x hx => hall x hx)
  rw [show (Jobs cb s).1 = jobsLoop cb s.jobSpecs from rfl, jobsLoop_eq, hd,
    List.takeWhile_eq_self_iff.mpr (fun x hx => hall x hx)]
  simp

/-- C7 witness: on the concrete three-spec store, enumeration visits a then
stops at b (c is never visited), and an always-true callback visits every
spec exactly once. -/
theorem claim_C7_witness :
    (Jobs jobsCbEx storeC7W).2 = none ∧
    (Jobs jobsCbEx storeC7W).1 = [⟨"a"⟩, ⟨"b"⟩] ∧
    (Jobs (fun _ => true) storeC7W).1 = storeC7W.jobSpecs := by
  obtain ⟨h1, h2, -⟩ := claim_C7 jobsCbEx storeC7W
  obtain ⟨-, -, h3⟩ := claim_C7 (fun _ => true) storeC7W
  refine ⟨h1, ?_, h3 (fun j _ => rfl)⟩
  rw [h2]
  rfl

theorem firstDisallowedStatus_eq_none_iff (l : RunStatusCollection) :
    firstDisallowedStatus l = none ↔
      ∀ st ∈ l, st = RunStatusCompleted ∨ st = RunStatusErrored := by
  induction l with
  | nil => simp [firstDisallowedStatus]
  | cons x xs ih =>
    by_cases hx : x ≠ RunStatusCompleted ∧ x ≠ RunStatusErrored
    · simp only [firstDisallowedStatus, if_pos hx]
      constructor
      · intro hc
        cases hc
      · intro hall
        rcases hall x (List.mem_cons_self _ _) with h | h
        · exact absurd h hx.1
        · exact absurd h hx.2
    · have hx2 : x = RunStatusCompleted ∨ x = RunStatusErrored := by tauto
      simp only [firstDisallowedStatus, if_neg hx, ih, List.mem_cons]
      constructor
      · intro hall st hst
        rcases hst with rfl | hst
        · exact hx2
        · exact hall st hst
      · intro hall st hst
        exact hall st (Or.inr hst)

theorem firstDisallowedStatus_some {l : RunStatusCollection} {st : RunStatus}
    (h : firstDisallowedStatus l = some st) :
    st ∈ l ∧ st ≠ RunStatusCompleted ∧ st ≠ RunStatusErrored := by
  induction l with
  | nil => cases h
  | cons x xs ih =>
    by_cases hx : x ≠ RunStatusCompleted ∧ x ≠ RunStatusErrored
    · simp only [firstDisallowedStatus, if_pos hx, Option.some_inj] at h
      subst h
      exact ⟨List.mem_cons_self _ _, hx⟩
    · simp only [firstDisallowedStatus, if_neg hx] at h
      obtain ⟨hmem, hne⟩ := ih h
      exact ⟨List.mem_cons_of_mem _ hmem, hne⟩

/-- C8: NewBulkDeleteRunTask fails exactly when the request's status list
holds a status other than completed or errored — only runs in terminal
states can be targeted — and on success the returned task carries the fresh
id, the request as its query, and the in-progress (empty string) status. -/
theorem claim_C8 (freshId : String) (request : BulkDeleteRunRequest) :
    ((∃ e, NewBulkDeleteRunTask freshId request = Except.error e) ↔
      ∃ st ∈ request.status, st ≠ RunStatusCompleted ∧ st ≠ RunStatusErrored) ∧
    ∀ t, NewBulkDeleteRunTask freshId request = Except.ok t →
      t.id = freshId ∧ t.query = request ∧ t.status = BulkTaskStatusInProgress := by
  cases hm : firstDisallowedStatus request.status with
  | none =>
    constructor
    · constructor
      · rintro ⟨e, he⟩
        simp only [NewBulkDeleteRunTask, hm] at he
        cases he
      · rintro ⟨st, hmem, h1, h2⟩
        rcases (firstDisallowedStatus_eq_none_iff request.status).mp hm st hmem with h | h
        · exact absurd h h1
        · exact absurd h h2
    · intro t ht
      simp only [NewBulkDeleteRunTask, hm, Except.ok.injEq] at ht
      subst ht
      exact ⟨rfl, rfl, rfl⟩
  | some st =>
    obtain ⟨hmem, h1, h2⟩ := firstDisallowedStatus_some hm
    constructor
    · constructor
      · intro _
        exact ⟨st, hmem, h1, h2⟩
      · intro _
        exact ⟨"cannot delete Runs with status ".toList ++ st, by
          simp only [NewBulkDeleteRunTask, hm]⟩
    · intro t ht
      simp only [NewBulkDeleteRunTask, hm] at ht
      cases ht

/-- C8 witness: the request with a non-terminal status is rejected, and the
terminal-status request yields a task with the fresh id, the request as its
query, and the in-progress status. -/
theorem claim_C8_witness :
    (∃ e, NewBulkDeleteRunTask "id1" reqBadEx = Except.error e) ∧
    ∃ t, NewBulkDeleteRunTask "id2" reqOkEx = Except.ok t ∧ t.id = "id2" ∧
      t.query = reqOkEx ∧ t.status = BulkTaskStatusInProgress := by
  obtain ⟨hiff, -⟩ := claim_C8 "id1" reqBadEx
  obtain ⟨-, hok⟩ := claim_C8 "id2" reqOkEx
  have hEq : NewBulkDeleteRunTask "id2" reqOkEx =
      Except.ok
        { id := "id2", query := reqOkEx, status := BulkTaskStatusInProgress,
          errorMessage := [] } := by rfl
  obtain ⟨ha, hb, hc⟩ := hok _ hEq
  exact ⟨hiff.mpr ⟨"in_progress".toList, by decide, by decide, by decide⟩,
    ⟨_, hEq, ha, hb, hc⟩⟩

/-- C9: DeleteJobRun is atomic: when either delete fails the error is
surfaced and the store is exactly as before — neither the JobRun nor any of
its TaskRuns is deleted — and on success the JobRun rows with the given id
and precisely the TaskRun rows referencing it are gone, every other row of
every table being retained unchanged. -/
theorem claim_C9 (f1 f2 : Bool) (s : Store) (id : String) :
    ((f1 = true ∨ f2 = true) →
      (deleteJobRun f1 f2 s id).2 ≠ none ∧ (deleteJobRun f1 f2 s id).1 = s) ∧
    ((deleteJobRun f1 f2 s id).2 ≠ none → (deleteJobRun f1 f2 s id).1 = s) ∧
    ((deleteJobRun f1 f2 s id).2 = none →
      (∀ jr ∈ (deleteJobRun f1 f2 s id).1.jobRuns, jr.id ≠ id) ∧
      (∀ tr ∈ (deleteJobRun f1 f2 s id).1.taskRuns, tr.jobRunId ≠ id) ∧
      (∀ jr ∈ s.jobRuns, jr.id ≠ id → jr ∈ (deleteJobRun f1 f2 s id).1.jobRuns) ∧
      (∀ tr ∈ s.taskRuns, tr.jobRunId ≠ id → tr ∈ (deleteJobRun f1 f2 s id).1.taskRuns) ∧
      (∀ jr ∈ (deleteJobRun f1 f2 s id).1.jobRuns, jr ∈ s.jobRuns) ∧
      (∀ tr ∈ (deleteJobRun f1 f2 s id).1.taskRuns, tr ∈ s.taskRuns) ∧
      (deleteJobRun f1 f2 s id).1.txs = s.txs ∧
      (deleteJobRun f1 f2 s id).1.attempts = s.attempts ∧
      (deleteJobRun f1 f2 s id).1.heads = s.heads ∧
      (deleteJobRun f1 f2 s id).1.initiators = s.initiators ∧
      (deleteJobRun f1 f2 s id).1.jobSpecs = s.jobSpecs) := by
  cases f1 with
  | true =>
    refine ⟨fun _ => ⟨by simp [deleteJobRun], by simp [deleteJobRun]⟩,
      fun _ => by simp [deleteJobRun], fun h => ?_⟩
    simp [deleteJobRun] at h
  | false =>
    cases f2 with
    | true =>
      refine ⟨fun _ => ⟨by simp [deleteJobRun], by simp [deleteJobRun]⟩,
        fun _ => by simp [deleteJobRun], fun h => ?_⟩
      simp [deleteJobRun] at h
    | false =>
      refine ⟨fun h => ?_, fun h => ?_, fun _ => ?_⟩
      · rcases h with h | h <;> cases h
      · exact absurd rfl h
      refine ⟨?_, ?_, ?_, ?_, ?_, ?_, rfl, rfl, rfl, rfl, rfl⟩
      · intro jr hm
        have := (List.mem_filter.mp hm).2
        simpa using this
      · intro tr hm
        have := (List.mem_filter.mp hm).2
        simpa using this
      · intro jr hm hne
        exact List.mem_filter.mpr ⟨hm, by simpa using hne⟩
      · intro tr hm hne
        exact List.mem_filter.mpr ⟨hm, by simpa using hne⟩
      · intro jr hm
        exact (List.mem_filter.mp hm).1
      · intro tr hm
        exact (List.mem_filter.mp hm).1

/-- C9 witness: on the concrete store, a failing second delete leaves the
store untouched, and a fully successful delete of "r1" retains job run "r2"
and its task run. -/
theorem claim_C9_witness :
    (deleteJobRun false true storeC9W "r1").1 = storeC9W ∧
    (∀ jr ∈ (deleteJobRun false false storeC9W "r1").1.jobRuns, jr.id ≠ "r1") ∧
    jobRun2Ex ∈ (deleteJobRun false false storeC9W "r1").1.jobRuns := by
  obtain ⟨hfail, -, -⟩ := claim_C9 false true storeC9W "r1"
  obtain ⟨-, -, hsucc⟩ := claim_C9 false false storeC9W "r1"
  obtain ⟨hno, -, hkeep, -⟩ := hsucc rfl
  exact ⟨(hfail (Or.inr rfl)).2, hno, hkeep jobRun2Ex (by decide) (by decide)⟩

theorem splitComma_ne_nil (t : List Char) : splitComma t ≠ [] := by
  induction t with
  | nil => simp [splitComma]
  | cons c rest ih =>
    by_cases h : c = ','
    · simp [splitComma, h]
    · simp only [splitComma, if_neg h]
      split <;> simp

theorem splitComma_append_no_comma (x t : List Char) (hx : ',' ∉ x) :
    splitComma (x ++ t) = (splitComma t).modifyHead (fun p => x ++ p) := by
  induction x with
  | nil =>
    cases hs : splitComma t <;> simp [hs]
  | cons c x ih =>
    have hc : ¬ c = ',' := by
      intro h
      exact hx (by simp [h])
    have hx2 : ',' ∉ x := fun h => hx (List.mem_cons_of_mem _ h)
    cases hs : splitComma t with
    | nil => exact absurd hs (splitComma_ne_nil t)
    | cons p ps =>
      have hxt : splitComma (x ++ t) = (x ++ p) :: ps := by
        rw [ih hx2, hs]
        simp
      simp only [List.cons_append, splitComma, if_neg hc, hs]
      have hxt2 : splitComma (x.append t) = (x ++ p) :: ps := hxt
      rw [hxt2]
      simp

theorem scan_value (r : RunStatusCollection) (hne : r ≠ [])
    (hc : ∀ st ∈ r, ',' ∉ st) :
    RunStatusCollection.scan (RunStatusCollection.value r) = r := by
  induction r with
  | nil => exact absurd rfl hne
  | cons x rest ih =>
    have hx : ',' ∉ x := hc x (List.mem_cons_self _ _)
    cases rest with
    | nil =>
      show splitComma (joinComma [x]) = [x]
      rw [show joinComma [x] = x from rfl, ← List.append_nil x,
        splitComma_append_no_comma x [] hx]
      simp [splitComma]
    | cons y rest2 =>
      show splitComma (joinComma (x :: y :: rest2)) = x :: y :: rest2
      rw [show joinComma (x :: y :: rest2) = x ++ ',' :: joinComma (y :: rest2) from rfl,
        splitComma_append_no_comma x _ hx,
        show splitComma (',' :: joinComma (y :: rest2)) =
          [] :: splitComma (joinComma (y :: rest2)) from by simp [splitComma]]
      have ihres := ih (by simp) (fun st hst => hc st (List.mem_cons_of_mem _ hst))
      simp only [RunStatusCollection.scan, RunStatusCollection.value] at ihres
      simp [ihres]

/-- C10: the Value/Scan round trip of RunStatusCollection — Value joins the
statuses with commas and Scan splits on commas — restores every non-empty
collection whose statuses contain no comma, while the empty collection comes
back as the one-element collection holding the empty status, as Go's
strings.Split of the empty string yields one empty piece. -/
theorem claim_C10 :
    (∀ r : RunStatusCollection, r ≠ [] → (∀ st ∈ r, ',' ∉ st) →
      RunStatusCollection.scan (RunStatusCollection.value r) = r) ∧
    RunStatusCollection.scan (RunStatusCollection.value []) = [[]] := by
  exact ⟨fun r h1 h2 => scan_value r h1 h2, rfl⟩

/-- C10 witness: the concrete two-status collection survives the round trip. -/
theorem claim_C10_witness :
    RunStatusCollection.scan (RunStatusCollection.value
      ["completed".toList, "errored".toList]) =
      ["completed".toList, "errored".toList] := by
  exact claim_C10.1 ["completed".toList, "errored".toList] (by decide) (by decide)

end Chainlink
